import Mathlib

/-!
# Verification of the `helpers` memory subsystem (`memory.go`)

Shallow embedding of the two-layer manual memory-management subsystem:

* the generic object-pool allocator (`memoryAllocator` with `Allocate`/`Free`),
* the buffer/bucket split-and-coalesce logic (`buffer_t.Cut`, `buffer_t.Merge`,
  `bucket_t.Allocate`, `bucket_t.Release`),
* the buffer manager orchestration (`bufferManager`).

Modelling conventions:

* Heap-allocated recyclable items (`buffer_t`, `bucket_t`, user items) are
  identified by natural-number ids.  The intrusive `Next` pointer field is an
  explicit map `next : Nat → Option Nat`; `nil` pointers are `none`.
* Go `int` counters and byte offsets/sizes are `Int` (they can go negative:
  `memoryAllocator.Free` decrements `allocatedItems` unconditionally).
* A Go `panic` is modelled by returning `none` from an `Option`-valued
  function; no post-panic state is observable.
* The batch factories used by this repository (`make(bufferMemoryItemList,
  count)` / `make(bucketMemoryItemList, count)`) produce exactly `count`
  fresh items; the embedding fixes this well-behaved factory: a batch of
  `count` fresh items receives the next `count` unused ids.  `minted` counts
  the ids handed out so far (it always equals the Go allocator's
  `reservedItems` because every minted batch is counted into `reservedItems`).
* `assert` in `memory.go` is commented out (a no-op), so asserts never panic
  and are not modelled.
-/

/-- The state of `memoryAllocator` (memory.go:72-78) plus the id-supply
counter `minted` for the fixed well-behaved factory.  `next` holds the
intrusive `Next` link of every item ever minted (`MemoryItem.SetNext`). -/
structure memoryAllocator where
  avail : Option Nat
  next : Nat → Option Nat
  burstSize : Nat
  reservedItems : Int
  allocatedItems : Int
  minted : Nat

/-- Mirror of Go's `AllocatorStats` (memory.go:62-65). -/
structure AllocatorStats where
  ReservedItems : Int
  AllocatedItems : Int
  deriving DecidableEq, Repr

/-- The initial allocator state produced by `NewAllocator` for a
non-negative burst size (memory.go:89). -/
def freshAllocator (burstSize : Nat) : memoryAllocator :=
  { avail := none, next := fun _ => none, burstSize := burstSize,
    reservedItems := 0, allocatedItems := 0, minted := 0 }

/-- `NewAllocator` (memory.go:84-90): panics (`none`) when `burstSize < 0`;
the factory argument is fixed to the well-behaved fresh-id factory. -/
def NewAllocator (burstSize : Int) : Option memoryAllocator :=
  if burstSize < 0 then none else some (freshAllocator burstSize.toNat)

/-- The `next`-map produced by the chaining loop of `allocate_memory_items`
(memory.go:111-120) on the fresh batch `base, base+1, …, base+count-1`:
item `i` links to `i+1`, the last item links to `nil`. -/
def chainNext (next : Nat → Option Nat) (base count : Nat) : Nat → Option Nat :=
  fun i =>
    if base ≤ i ∧ i < base + count then
      (if i = base + count - 1 then none else some (i + 1))
    else next i

/-- `allocate_memory_items` (memory.go:102-123) with the well-behaved
factory: mints `count` fresh ids starting at `minted` and chains them.
When `count = 0` the factory returns an empty collection and
`items.GetItem(0)` (memory.go:109) panics with an index-out-of-range
(`none`) before any state change. -/
def allocate_memory_items (next : Nat → Option Nat) (minted count : Nat) :
    Option ((Nat × Nat) × (Nat → Option Nat)) :=
  if count = 0 then none
  else some ((minted, count), chainNext next minted count)

namespace memoryAllocator

/-- The refill step in `memoryAllocator.Allocate` (memory.go:125-135): when
`avail` is `nil`, mint a burst, install it as the free list and grow
`reservedItems`. -/
def refill (a : memoryAllocator) : Option memoryAllocator :=
  match allocate_memory_items a.next a.minted a.burstSize with
  | none => none
  | some ((first, size), next') =>
      some { a with avail := some first, next := next',
                    minted := a.minted + size,
                    reservedItems := a.reservedItems + (size : Int) }

/-- `memoryAllocator.Allocate` (memory.go:124-143): refill when empty, then
pop the head, bump `allocatedItems`, advance `avail`, and `Reset` the popped
item (which clears its `Next` link).  `none` is the panic on an empty batch
(`burstSize = 0`). -/
def Allocate (a : memoryAllocator) : Option (Nat × memoryAllocator) :=
  match (if a.avail = none then a.refill else some a) with
  | none => none
  | some a1 =>
    match a1.avail with
    | none => none
    | some h =>
        some (h, { a1 with allocatedItems := a1.allocatedItems + 1,
                           avail := a1.next h,
                           next := Function.update a1.next h none })

/-- `memoryAllocator.Free` (memory.go:144-152): a `nil` item is ignored;
otherwise the item's `Next` is unconditionally pointed at the current head,
the item becomes the new head, and `allocatedItems` is decremented — with no
ownership or double-free check. -/
def Free (a : memoryAllocator) (item : Option Nat) : memoryAllocator :=
  match item with
  | none => a
  | some x =>
      { a with next := Function.update a.next x a.avail,
               avail := some x,
               allocatedItems := a.allocatedItems - 1 }

/-- `memoryAllocator.GetStats` (memory.go:153-158). -/
def GetStats (a : memoryAllocator) : AllocatorStats :=
  ⟨a.reservedItems, a.allocatedItems⟩

end memoryAllocator

/-- Run `n` consecutive `Allocate` calls, collecting the returned items. -/
def allocN (a : memoryAllocator) : Nat → Option (List Nat × memoryAllocator)
  | 0 => some ([], a)
  | n + 1 =>
    match a.Allocate with
    | none => none
    | some (x, a') =>
      match allocN a' n with
      | none => none
      | some (xs, a'') => some (x :: xs, a'')

/-- C4 **Pool accounting**: with `burst_size = 4` and the well-behaved
factory, 5 `Allocate` calls yield items `0,1,2,3,4` and stats
`reserved = 8`, `allocated = 5`; freeing 3 of the allocated items leaves
`allocated = 2` with `reserved` still 8. -/
theorem C4_pool_accounting :
    NewAllocator 4 = some (freshAllocator 4) ∧
    ((allocN (freshAllocator 4) 5).map fun p => p.1) = some [0, 1, 2, 3, 4] ∧
    ((allocN (freshAllocator 4) 5).map fun p => p.2.GetStats) = some ⟨8, 5⟩ ∧
    ((allocN (freshAllocator 4) 5).map fun p =>
        (((p.2.Free (some 0)).Free (some 1)).Free (some 2)).GetStats) = some ⟨8, 2⟩ :=
  ⟨rfl, by decide, by decide, by decide⟩

/-- C9: constructing with `burst_size = 0` and a non-null factory succeeds
(`NewAllocator` only rejects negative bursts, memory.go:85), but every
`Allocate` call on a state with an empty free list panics: the factory is
invoked with count 0 and `items.GetItem(0)` (memory.go:109) indexes the
empty collection, panicking before any counter or free-list change. -/
theorem C9_zero_burst_allocate_panics :
    NewAllocator 0 = some (freshAllocator 0) ∧
    ∀ a : memoryAllocator, a.burstSize = 0 → a.avail = none → a.Allocate = none := by
  refine ⟨rfl, fun a h0 hav => ?_⟩
  simp [memoryAllocator.Allocate, hav, memoryAllocator.refill, allocate_memory_items, h0]

/-- Witness for C9: the fresh zero-burst allocator panics on `Allocate`. -/
theorem C9_zero_burst_allocate_panics_witness : (freshAllocator 0).Allocate = none :=
  C9_zero_burst_allocate_panics.2 (freshAllocator 0) rfl rfl

/-- C10: `memoryAllocator.Free` performs no ownership or double-free check
(memory.go:144-152): for every non-null item it sets the item's `Next` to
the current head, installs the item as new head and decrements
`allocatedItems`; freeing item 0 twice in a row (after one allocation from
a burst-1 pool) self-links item 0 (`next 0 = some 0`) and drives
`allocatedItems` from 1 down to -1. -/
theorem C10_free_unchecked :
    (∀ (a : memoryAllocator) (x : Nat),
        (a.Free (some x)).next x = a.avail ∧
        (a.Free (some x)).avail = some x ∧
        (a.Free (some x)).allocatedItems = a.allocatedItems - 1) ∧
    ((allocN (freshAllocator 1) 1).map fun p =>
        ((((p.2.Free (some 0)).Free (some 0)).next 0,
          ((p.2.Free (some 0)).Free (some 0)).avail,
          p.2.allocatedItems,
          ((p.2.Free (some 0)).Free (some 0)).allocatedItems))) =
      some (some 0, some 0, 1, -1) := by
  refine ⟨fun a x => ⟨?_, rfl, rfl⟩, by decide⟩
  simp [memoryAllocator.Free]

/-- `fl` is exactly the chain of items reachable from head `h` through the
`next` links (the allocator's singly-linked `avail` free list). -/
def encodesList (next : Nat → Option Nat) : Option Nat → List Nat → Prop
  | h, [] => h = none
  | h, x :: xs => h = some x ∧ encodesList next (next x) xs

theorem encodesList_congr (next1 next2 : Nat → Option Nat) :
    ∀ {l : List Nat} {h : Option Nat}, (∀ x ∈ l, next1 x = next2 x) →
      encodesList next1 h l → encodesList next2 h l
  | [], _, _, he => he
  | x :: xs, _, hagree, ⟨hh, ht⟩ => by
    refine ⟨hh, ?_⟩
    rw [← hagree x (List.mem_cons_self x xs)]
    exact encodesList_congr next1 next2
      (fun y hy => hagree y (List.mem_cons_of_mem x hy)) ht

/-- The strengthened pool invariant: `fl` is the current free list, `out`
the items currently checked out; together they enumerate every minted item
exactly once, and the Go counters agree with them. -/
def PoolInv (a : memoryAllocator) (fl out : List Nat) : Prop :=
  encodesList a.next a.avail fl ∧
  (fl ++ out).Perm (List.range a.minted) ∧
  a.reservedItems = (a.minted : Int) ∧
  a.allocatedItems = (out.length : Int)

theorem PoolInv.nodup {a fl out} (h : PoolInv a fl out) : (fl ++ out).Nodup :=
  h.2.1.symm.nodup (List.nodup_range _)

theorem PoolInv.perm_out {a fl out out'} (h : PoolInv a fl out)
    (hp : out.Perm out') : PoolInv a fl out' :=
  ⟨h.1, (List.Perm.append_left fl hp.symm).trans h.2.1, h.2.2.1,
    by rw [h.2.2.2, hp.length_eq]⟩

theorem PoolInv_freshAllocator (b : Nat) : PoolInv (freshAllocator b) [] [] :=
  ⟨rfl, by simp [freshAllocator], rfl, rfl⟩

theorem encodesList_chainNext (next : Nat → Option Nat) (base count : Nat) :
    ∀ (m base' : Nat), base ≤ base' → base' + m = base + count → 0 < m →
      encodesList (chainNext next base count) (some base') (List.range' base' m)
  | 0, _, _, _, h0 => absurd h0 (by omega)
  | 1, base', hb, hm, _ => by
    refine ⟨rfl, ?_⟩
    show chainNext next base count base' = none
    simp only [chainNext]
    rw [if_pos ⟨hb, by omega⟩, if_pos (by omega)]
  | m + 2, base', hb, hm, _ => by
    refine ⟨rfl, ?_⟩
    have hstep : chainNext next base count base' = some (base' + 1) := by
      simp only [chainNext]
      rw [if_pos ⟨hb, by omega⟩, if_neg (by omega)]
    rw [hstep]
    exact encodesList_chainNext next base count (m + 1) (base' + 1)
      (by omega) (by omega) (by omega)

/-- Unfolding of `Allocate` when the free list is non-empty: pop the head. -/
theorem memoryAllocator.Allocate_pop {a : memoryAllocator} {h0 : Nat}
    (hav : a.avail = some h0) :
    a.Allocate = some (h0,
      { a with allocatedItems := a.allocatedItems + 1,
               avail := a.next h0,
               next := Function.update a.next h0 none }) := by
  unfold memoryAllocator.Allocate
  rw [hav, if_neg (Option.some_ne_none h0)]
  show (match a.avail with
    | none => none
    | some h =>
        some (h, { a with allocatedItems := a.allocatedItems + 1,
                          avail := a.next h,
                          next := Function.update a.next h none })) = _
  rw [hav]

/-- Unfolding of `Allocate` when the free list is empty and the burst is
positive: mint a fresh chained batch, then pop its first item. -/
theorem memoryAllocator.Allocate_refill {a : memoryAllocator}
    (hav : a.avail = none) (hb : a.burstSize ≠ 0) :
    a.Allocate = some (a.minted,
      { a with allocatedItems := a.allocatedItems + 1,
               avail := chainNext a.next a.minted a.burstSize a.minted,
               next := Function.update (chainNext a.next a.minted a.burstSize) a.minted none,
               minted := a.minted + a.burstSize,
               reservedItems := a.reservedItems + (a.burstSize : Int) }) := by
  unfold memoryAllocator.Allocate memoryAllocator.refill allocate_memory_items
  rw [hav, if_pos rfl, if_neg hb]

/-- Unfolding of `Allocate` when the free list is empty and the burst is
zero: the factory's empty collection is indexed at 0, a panic. -/
theorem memoryAllocator.Allocate_zero_burst {a : memoryAllocator}
    (hav : a.avail = none) (hb : a.burstSize = 0) : a.Allocate = none := by
  unfold memoryAllocator.Allocate memoryAllocator.refill allocate_memory_items
  rw [hav, if_pos rfl, if_pos hb]

/-- A successful `Allocate` pops an item that is not checked out, preserving
the pool invariant with the item added to the checked-out list. -/
theorem PoolInv.alloc {a : memoryAllocator} {fl out : List Nat} {x : Nat}
    {a' : memoryAllocator} (h : PoolInv a fl out)
    (hA : a.Allocate = some (x, a')) :
    ∃ fl', PoolInv a' fl' (x :: out) ∧ x ∉ out := by
  have hnodup := h.nodup
  obtain ⟨henc, hperm, hres, hall⟩ := h
  rcases hav : a.avail with _ | h0
  · -- free list empty: refill with a fresh chained batch, pop its head
    rw [hav] at henc
    have hfl : fl = [] := by
      cases fl with
      | nil => rfl
      | cons y ys => exact absurd henc.1 (by simp)
    subst hfl
    by_cases hb : a.burstSize = 0
    · rw [memoryAllocator.Allocate_zero_burst hav hb] at hA
      exact absurd hA (by simp)
    rw [memoryAllocator.Allocate_refill hav hb] at hA
    simp only [Option.some.injEq, Prod.mk.injEq] at hA
    obtain ⟨hx, ha'⟩ := hA
    subst hx
    subst ha'
    have hxout : a.minted ∉ out := by
      intro hmm
      have := hperm.subset (by simpa using hmm)
      rw [List.mem_range] at this
      omega
    refine ⟨List.range' (a.minted + 1) (a.burstSize - 1), ⟨?_, ?_, ?_, ?_⟩, hxout⟩
    · -- the rest of the fresh chain is the new free list
      show encodesList (Function.update (chainNext a.next a.minted a.burstSize) a.minted none)
        (chainNext a.next a.minted a.burstSize a.minted)
        (List.range' (a.minted + 1) (a.burstSize - 1))
      have hmem : a.minted ∉ List.range' (a.minted + 1) (a.burstSize - 1) := by
        intro hmm
        rw [List.mem_range'_1] at hmm
        omega
      refine encodesList_congr (chainNext a.next a.minted a.burstSize) _
        (fun y hy => (Function.update_noteq (by rintro rfl; exact hmem hy) _ _).symm) ?_
      have hhd : chainNext a.next a.minted a.burstSize a.minted =
          if a.burstSize = 1 then none else some (a.minted + 1) := by
        simp only [chainNext]
        rw [if_pos ⟨le_refl _, by omega⟩]
        by_cases h1 : a.burstSize = 1
        · rw [if_pos (by omega), if_pos h1]
        · rw [if_neg (by omega), if_neg h1]
      rw [hhd]
      by_cases h1 : a.burstSize = 1
      · rw [if_pos h1, h1]
        exact rfl
      · rw [if_neg h1]
        exact encodesList_chainNext a.next a.minted a.burstSize
          (a.burstSize - 1) (a.minted + 1) (by omega) (by omega) (by omega)
    · -- fresh tail ++ minted :: out enumerates range (minted + burst)
      show (List.range' (a.minted + 1) (a.burstSize - 1) ++ a.minted :: out).Perm
        (List.range (a.minted + a.burstSize))
      refine List.perm_middle.trans ?_
      have hcons : List.range' a.minted a.burstSize =
          a.minted :: List.range' (a.minted + 1) (a.burstSize - 1) := by
        have hb1 : a.burstSize = (a.burstSize - 1) + 1 := by omega
        conv_lhs => rw [hb1]
        rw [List.range'_succ]
      have h1 : a.minted :: (List.range' (a.minted + 1) (a.burstSize - 1) ++ out) =
          List.range' a.minted a.burstSize ++ out := by
        rw [hcons]
        rfl
      rw [h1]
      have h2 : (List.range' a.minted a.burstSize ++ out).Perm
          (List.range' a.minted a.burstSize ++ List.range a.minted) :=
        List.Perm.append_left _ (by simpa using hperm)
      have h4 : List.range a.minted ++ List.range' a.minted a.burstSize =
          List.range (a.minted + a.burstSize) := by
        rw [List.range_eq_range', List.range_eq_range']
        have := List.range'_append 0 a.minted a.burstSize 1
        simpa [Nat.add_comm] using this
      exact h2.trans (List.perm_append_comm.trans (by rw [h4]))
    · show a.reservedItems + (a.burstSize : Int) = ((a.minted + a.burstSize : Nat) : Int)
      rw [hres]
      push_cast
      ring
    · show a.allocatedItems + 1 = ((a.minted :: out).length : Int)
      rw [hall, List.length_cons]
      push_cast
      ring
  · -- free list non-empty: pop its head
    rw [memoryAllocator.Allocate_pop hav] at hA
    simp only [Option.some.injEq, Prod.mk.injEq] at hA
    obtain ⟨hx, ha'⟩ := hA
    subst hx
    subst ha'
    rw [hav] at henc
    cases fl with
    | nil => exact absurd henc (by simp [encodesList])
    | cons y ys =>
      obtain ⟨hy, hys⟩ := henc
      have hyh : y = h0 := (Option.some.inj hy).symm
      subst hyh
      rw [List.cons_append, List.nodup_cons] at hnodup
      have hnotys : y ∉ ys := fun hm => hnodup.1 (List.mem_append_left _ hm)
      have hnotout : y ∉ out := fun hm => hnodup.1 (List.mem_append_right _ hm)
      refine ⟨ys, ⟨?_, ?_, ?_, ?_⟩, hnotout⟩
      · show encodesList (Function.update a.next y none) (a.next y) ys
        exact encodesList_congr _ _
          (fun z hz => (Function.update_noteq (by rintro rfl; exact hnotys hz) _ _).symm)
          hys
      · show (ys ++ y :: out).Perm (List.range a.minted)
        exact List.perm_middle.trans hperm
      · exact hres
      · show a.allocatedItems + 1 = ((y :: out).length : Int)
        rw [hall, List.length_cons]
        push_cast
        ring

/-- `Free` of a checked-out item pushes it back onto the free list,
preserving the pool invariant. -/
theorem PoolInv.free {a : memoryAllocator} {fl out : List Nat} {x : Nat}
    (h : PoolInv a fl (x :: out)) : PoolInv (a.Free (some x)) (x :: fl) out := by
  have hnodup := h.nodup
  obtain ⟨henc, hperm, hres, hall⟩ := h
  have hxfl : x ∉ fl := by
    rw [List.nodup_append] at hnodup
    exact fun hm => hnodup.2.2 hm (List.mem_cons_self x out)
  refine ⟨⟨rfl, ?_⟩, ?_, hres, ?_⟩
  · show encodesList _ (Function.update a.next x a.avail x) fl
    rw [Function.update_same]
    exact encodesList_congr _ _
      (fun z hz => (Function.update_noteq (by rintro rfl; exact hxfl hz) _ _).symm)
      henc
  · show ((x :: fl) ++ out).Perm (List.range a.minted)
    exact List.Perm.trans (List.Perm.symm List.perm_middle) hperm
  · show a.allocatedItems - 1 = (out.length : Int)
    rw [hall, List.length_cons]
    push_cast
    ring

/-- Legal usage traces of one object-pool allocator: starting fresh, any
interleaving of `Allocate` and of `Free` applied only to an item previously
returned by `Allocate` and not already freed.  `out` is the (ghost) list of
currently checked-out items. -/
inductive AReach (burst : Nat) : memoryAllocator → List Nat → Prop
  | init : AReach burst (freshAllocator burst) []
  | alloc {a out x a'} : AReach burst a out → a.Allocate = some (x, a') →
      AReach burst a' (x :: out)
  | free {a out x} : AReach burst a out → x ∈ out →
      AReach burst (a.Free (some x)) (out.erase x)

theorem AReach_poolInv {burst : Nat} {a : memoryAllocator} {out : List Nat}
    (h : AReach burst a out) : ∃ fl, PoolInv a fl out := by
  induction h with
  | init => exact ⟨[], PoolInv_freshAllocator burst⟩
  | alloc _ hA ih =>
      obtain ⟨fl, hfl⟩ := ih
      obtain ⟨fl', hfl', _⟩ := hfl.alloc hA
      exact ⟨fl', hfl'⟩
  | free _ hx ih =>
      obtain ⟨fl, hfl⟩ := ih
      exact ⟨_, (hfl.perm_out (List.perm_cons_erase hx)).free⟩

/-- C5: for every pool allocator with positive burst and the well-behaved
factory, under legal usage (`Free` only on items previously returned by
`Allocate` and not already free), every reachable state satisfies
`allocated ≤ reserved`, and `allocated = reserved` whenever the free list
`avail` is empty. -/
theorem C5_pool_counter_invariant {burst : Nat} {a : memoryAllocator}
    {out : List Nat} (h : AReach burst a out) (_hb : 0 < burst) :
    a.allocatedItems ≤ a.reservedItems ∧
      (a.avail = none → a.allocatedItems = a.reservedItems) := by
  obtain ⟨fl, henc, hperm, hres, hall⟩ := AReach_poolInv h
  have hlen : fl.length + out.length = a.minted := by
    have := hperm.length_eq
    simpa using this
  constructor
  · rw [hall, hres]
    have hle : out.length ≤ a.minted := by omega
    exact_mod_cast hle
  · intro hav
    rw [hav] at henc
    have hfl : fl = [] := by
      cases fl with
      | nil => rfl
      | cons y ys => exact absurd henc.1 (by simp)
    subst hfl
    have hm : out.length = a.minted := by simpa using hlen
    rw [hall, hres, hm]
/-- Witness for C5 at the freshly constructed burst-1 allocator. -/
theorem C5_pool_counter_invariant_witness :
    (freshAllocator 1).allocatedItems ≤ (freshAllocator 1).reservedItems ∧
      ((freshAllocator 1).avail = none →
        (freshAllocator 1).allocatedItems = (freshAllocator 1).reservedItems) :=
  C5_pool_counter_invariant AReach.init (by decide)

/-- The state of one `bucket_t` (memory.go:266-270) together with the
buffer heap it works on: `starts`/`sizes`/`owner` are the `Start`, `Size`
and `Bucket` fields of every `buffer_t` by id, `pool` is the buffer
allocator (whose `next` map also holds each buffer's intrusive `Next`
link), `freeBuffers` is the bucket's free list (the `Next`-chain of free
buffers, represented positionally), and `bucketSize` is
`cap(bucket.Buffer)`.  A buffer's `Data` slice always equals
`Bucket.Buffer[Start:Start+Size]`, so it is determined by `starts`/`sizes`
and not modelled separately. -/
structure bucketSys where
  pool : memoryAllocator
  starts : Nat → Int
  sizes : Nat → Int
  owner : Nat → Nat
  freeBuffers : List Nat
  bucketSize : Int

/-- `buffer_t.MergableWith` (memory.go:245-247) with `this = b`,
`other = c`: `this.Start == other.End() || this.End() == other.Start`. -/
def MergableWith (starts sizes : Nat → Int) (b c : Nat) : Bool :=
  (starts b == starts c + sizes c) || (starts b + sizes b == starts c)

/-- `buffer_t.Merge` (memory.go:250-261) with `this = b`, `other = c`:
`b.Start` becomes the smaller of the two starts, `b.Size` the sum of both
sizes (the `Data` view follows `Start`/`Size`). -/
def buffer_Merge (b c : Nat) (s : bucketSys) : bucketSys :=
  let newStart := if s.starts c < s.starts b then s.starts c else s.starts b
  let newSize := s.sizes b + s.sizes c
  { s with starts := Function.update s.starts b newStart,
           sizes := Function.update s.sizes b newSize }

/-- The first-fit scan of `bucket_t.Allocate` (memory.go:294-311) over the
remaining free list: exact fit unlinks and returns the candidate; a larger
candidate is `Cut` (memory.go:226-242) — a fresh buffer `r` is minted from
the pool and takes the front `size` bytes (same start, same bucket), the
candidate keeps the tail in place (`Start += size`, `Size -= size`);
otherwise the scan advances.  Returns the outcome, the updated system, and
the transformed remainder of the list; `none` is a pool panic. -/
def bucketAllocateAux (size : Int) (s : bucketSys) :
    List Nat → Option (Option Nat × bucketSys × List Nat)
  | [] => some (none, s, [])
  | c :: cs =>
    if s.sizes c = size then
      some (some c, s, cs)
    else if size < s.sizes c then
      match s.pool.Allocate with
      | none => none
      | some (r, pool') =>
          let starts1 := Function.update s.starts r (s.starts c)
          let sizes1 := Function.update s.sizes r size
          let owner1 := Function.update s.owner r (s.owner c)
          let starts2 := Function.update starts1 c (starts1 c + size)
          let sizes2 := Function.update sizes1 c (sizes1 c - size)
          some (some r,
            { s with pool := pool', starts := starts2, sizes := sizes2,
                     owner := owner1 },
            c :: cs)
    else
      match bucketAllocateAux size s cs with
      | none => none
      | some (res, s', cs') => some (res, s', c :: cs')

/-- `bucket_t.Allocate` (memory.go:294-311). -/
def bucket_Allocate (size : Int) (s : bucketSys) :
    Option (Option Nat × bucketSys) :=
  match bucketAllocateAux size s s.freeBuffers with
  | none => none
  | some (res, s', l') => some (res, { s' with freeBuffers := l' })

/-- One pass of the `bucket_t.Release` loop (memory.go:319-330): find the
first list entry mergeable with the freed buffer `b`, merge it into `b`,
unlink it and return it to the buffer pool.  `none` when no entry merges. -/
def scanMerge (b : Nat) (s : bucketSys) :
    List Nat → Option (bucketSys × List Nat)
  | [] => none
  | c :: cs =>
    if MergableWith s.starts s.sizes b c then
      let s1 := buffer_Merge b c s
      some ({ s1 with pool := s1.pool.Free (some c) }, cs)
    else
      match scanMerge b s cs with
      | none => none
      | some (s', cs') => some (s', c :: cs')

/-- The restart-on-merge loop of `bucket_t.Release`: repeat `scanMerge`
from the list head until no entry merges.  Each successful pass removes one
list entry, so `fuel = length` makes the recursion structural without ever
truncating the loop (at fuel 0 the list is empty and the scan would stop
anyway). -/
def releaseLoop (b : Nat) : Nat → bucketSys → List Nat → bucketSys × List Nat
  | 0, s, l => (s, l)
  | fuel + 1, s, l =>
    match scanMerge b s l with
    | none => (s, l)
    | some (s', l') => releaseLoop b fuel s' l'

/-- `bucket_t.Release` (memory.go:312-334): an empty free list takes the
freed buffer as sole entry; otherwise cascade-merge with restart, then push
the (possibly grown) freed buffer onto the head of the free list. -/
def bucket_Release (b : Nat) (s : bucketSys) : bucketSys :=
  match s.freeBuffers with
  | [] => { s with freeBuffers := [b] }
  | l =>
    let r := releaseLoop b l.length s l
    { r.1 with freeBuffers := b :: r.2 }

/-- A fresh standalone Bucket exactly as `bufferManager.createBucket`
builds it (memory.go:397-408): a fresh buffer pool with the given burst
mints the spanning buffer `[0, bucketSize)`, which becomes the sole entry
of the free list.  `none` is the pool panic (burst 0). -/
def initBucketSys (bucketSize : Int) (burst : Nat) : Option bucketSys :=
  match (freshAllocator burst).Allocate with
  | none => none
  | some (r, pool') =>
      some { pool := pool',
             starts := Function.update (fun _ => 0) r 0,
             sizes := Function.update (fun _ => 0) r bucketSize,
             owner := fun _ => 0,
             freeBuffers := [r],
             bucketSize := bucketSize }

/-- The concrete C3 scenario: a fresh 30-byte bucket, allocate
A = 10, B = 10, C = 10 in order, then release B, then A, then C.
Returns the ranges of A, B, C at allocation time and the final free list
as ranges. -/
def c3_run : Option ((Int × Int) × (Int × Int) × (Int × Int) × List (Int × Int)) :=
  match initBucketSys 30 1 with
  | none => none
  | some s0 =>
    match bucket_Allocate 10 s0 with
    | some (some a, s1) =>
      match bucket_Allocate 10 s1 with
      | some (some b, s2) =>
        match bucket_Allocate 10 s2 with
        | some (some c, s3) =>
            let s6 := bucket_Release c (bucket_Release a (bucket_Release b s3))
            some ((s3.starts a, s3.sizes a), (s3.starts b, s3.sizes b),
                  (s3.starts c, s3.sizes c),
                  s6.freeBuffers.map fun d => (s6.starts d, s6.sizes d))
        | _ => none
      | _ => none
    | _ => none

/-- C3 **Coalescing completeness**: on a fresh 30-byte Bucket, allocating
A = \[0,10), B = \[10,20), C = \[20,30) in order (as (start, size) pairs:
(0,10), (10,10), (20,10)) and releasing B, then A, then C leaves the
Bucket's free list holding exactly one free Buffer with start 0 and
size 30. -/
theorem C3_coalescing_completeness :
    c3_run = some ((0, 10), (10, 10), (20, 10), [(0, 30)]) := by decide

/-- How many of the buffers in `l` cover the point `x` (each buffer covers
`[start, start+size)`). -/
def coverCount (starts sizes : Nat → Int) : List Nat → Int → Nat
  | [], _ => 0
  | b :: l, x =>
      (if starts b ≤ x ∧ x < starts b + sizes b then 1 else 0) +
        coverCount starts sizes l x

theorem coverCount_append (starts sizes : Nat → Int) (l1 l2 : List Nat) (x : Int) :
    coverCount starts sizes (l1 ++ l2) x =
      coverCount starts sizes l1 x + coverCount starts sizes l2 x := by
  induction l1 with
  | nil => simp [coverCount]
  | cons b l ih => simp [coverCount, ih]; omega

theorem coverCount_perm (starts sizes : Nat → Int) {l1 l2 : List Nat}
    (h : l1.Perm l2) (x : Int) :
    coverCount starts sizes l1 x = coverCount starts sizes l2 x := by
  induction h with
  | nil => rfl
  | cons b _ ih => simp [coverCount, ih]
  | swap b c l => simp [coverCount]; omega
  | trans _ _ ih1 ih2 => rw [ih1, ih2]

theorem coverCount_congr {starts1 sizes1 starts2 sizes2 : Nat → Int}
    {l : List Nat} (h : ∀ b ∈ l, starts1 b = starts2 b ∧ sizes1 b = sizes2 b)
    (x : Int) : coverCount starts1 sizes1 l x = coverCount starts2 sizes2 l x := by
  induction l with
  | nil => rfl
  | cons b l ih =>
      have hb := h b (List.mem_cons_self b l)
      simp only [coverCount, hb.1, hb.2,
        ih (fun d hd => h d (List.mem_cons_of_mem b hd))]

/-- Every buffer in `L` lies inside the bucket: non-negative start and
size, and `start + size ≤ N` (the no-overrun bound). -/
def bufferBounds (starts sizes : Nat → Int) (N : Int) (L : List Nat) : Prop :=
  ∀ b ∈ L, 0 ≤ starts b ∧ 0 ≤ sizes b ∧ starts b + sizes b ≤ N

theorem bufferBounds_perm {starts sizes : Nat → Int} {N : Int}
    {l1 l2 : List Nat} (h : l1.Perm l2) :
    bufferBounds starts sizes N l1 → bufferBounds starts sizes N l2 :=
  fun hb d hd => hb d (h.mem_iff.mpr hd)

/-- The buffers in `L` cover every point of `[0, N)` exactly once and no
point outside it: an exact, non-overlapping partition of the bucket. -/
def partitioned (starts sizes : Nat → Int) (N : Int) (L : List Nat) : Prop :=
  ∀ x : Int, coverCount starts sizes L x = if 0 ≤ x ∧ x < N then 1 else 0

theorem partitioned_perm {starts sizes : Nat → Int} {N : Int}
    {l1 l2 : List Nat} (h : l1.Perm l2) :
    partitioned starts sizes N l1 → partitioned starts sizes N l2 :=
  fun hp x => (coverCount_perm starts sizes h.symm x).trans (hp x)

/-- One point's contribution when a free range is cut at offset `z`. -/
theorem indicator_cut (sc z zc x : Int) (h0 : 0 ≤ z) (hz : z ≤ zc) :
    (if sc ≤ x ∧ x < sc + z then 1 else 0) +
      (if sc + z ≤ x ∧ x < sc + z + (zc - z) then 1 else 0) =
      (if sc ≤ x ∧ x < sc + zc then (1 : Nat) else 0) := by
  split_ifs <;> omega

/-- One point's contribution when two adjacent ranges merge. -/
theorem indicator_merge (sb zb sc zc x : Int) (hb : 0 ≤ zb) (hc : 0 ≤ zc)
    (hadj : sb = sc + zc ∨ sb + zb = sc) :
    (if (if sc < sb then sc else sb) ≤ x ∧
        x < (if sc < sb then sc else sb) + (zb + zc) then (1 : Nat) else 0) =
      (if sb ≤ x ∧ x < sb + zb then 1 else 0) +
        (if sc ≤ x ∧ x < sc + zc then 1 else 0) := by
  split_ifs <;> omega

/-- The full invariant of one bucket: the pool invariant ties the buffer
pool to the live buffers (`freeBuffers ++ used`), which are in-bounds and
partition `[0, bucketSize)` exactly. -/
def BInv (s : bucketSys) (used : List Nat) : Prop :=
  (∃ pfl, PoolInv s.pool pfl (s.freeBuffers ++ used)) ∧
  bufferBounds s.starts s.sizes s.bucketSize (s.freeBuffers ++ used) ∧
  partitioned s.starts s.sizes s.bucketSize (s.freeBuffers ++ used)

/-- Legal usage traces of one Bucket: starting from a fresh Bucket with one
free Buffer spanning the whole capacity, any interleaving of
`bucket_t.Allocate` with non-negative sizes (a negative size would make
`Cut` panic on `Data[:size]` in Go) and of `bucket_t.Release` applied only
to a currently handed-out Buffer.  `used` is the (ghost) list of
currently handed-out buffers. -/
inductive BReach (N : Int) (burst : Nat) : bucketSys → List Nat → Prop
  | init {s} : 0 ≤ N → initBucketSys N burst = some s → BReach N burst s []
  | alloc {s used z b s'} : BReach N burst s used → 0 ≤ z →
      bucket_Allocate z s = some (some b, s') → BReach N burst s' (b :: used)
  | allocFail {s used z s'} : BReach N burst s used → 0 ≤ z →
      bucket_Allocate z s = some (none, s') → BReach N burst s' used
  | release {s used b} : BReach N burst s used → b ∈ used →
      BReach N burst (bucket_Release b s) (used.erase b)

theorem bucketAllocateAux_none_eq {z : Int} {s : bucketSys} :
    ∀ {l s' l'}, bucketAllocateAux z s l = some (none, s', l') → s' = s ∧ l' = l := by
  intro l
  induction l with
  | nil =>
      intro s' l' h
      simp only [bucketAllocateAux, Option.some.injEq, Prod.mk.injEq] at h
      exact ⟨h.2.1.symm, h.2.2.symm⟩
  | cons c cs ih =>
      intro s' l' h
      rw [bucketAllocateAux] at h
      by_cases h1 : s.sizes c = z
      · rw [if_pos h1] at h
        simp at h
      · rw [if_neg h1] at h
        by_cases h2 : z < s.sizes c
        · rw [if_pos h2] at h
          cases hp : s.pool.Allocate with
          | none => rw [hp] at h; exact absurd h (by simp)
          | some rp => rw [hp] at h; simp at h
        · rw [if_neg h2] at h
          cases hrec : bucketAllocateAux z s cs with
          | none => rw [hrec] at h; exact absurd h (by simp)
          | some t =>
              obtain ⟨res, s1, cs1⟩ := t
              rw [hrec] at h
              simp only [Option.some.injEq, Prod.mk.injEq] at h
              obtain ⟨hres, hs1, hl⟩ := h
              subst hres
              obtain ⟨hseq, hceq⟩ := ih hrec
              subst hseq
              exact ⟨hs1.symm, by rw [← hl, hceq]⟩

theorem bucketAllocateAux_some_inv {z : Int} (hz : 0 ≤ z) :
    ∀ (l : List Nat) {F : List Nat} {s s' : bucketSys} {b : Nat} {l' : List Nat},
      bucketAllocateAux z s l = some (some b, s', l') →
      (∃ pfl, PoolInv s.pool pfl (l ++ F)) →
      bufferBounds s.starts s.sizes s.bucketSize (l ++ F) →
      s'.bucketSize = s.bucketSize ∧ s'.freeBuffers = s.freeBuffers ∧
      (∃ pfl', PoolInv s'.pool pfl' (b :: (l' ++ F))) ∧
      bufferBounds s'.starts s'.sizes s'.bucketSize (b :: (l' ++ F)) ∧
      (∀ x, coverCount s'.starts s'.sizes (b :: (l' ++ F)) x
            = coverCount s.starts s.sizes (l ++ F) x) := by
  intro l
  induction l with
  | nil =>
      intro F s s' b l' h _ _
      simp [bucketAllocateAux] at h
  | cons c cs ih =>
      intro F s s' b l' h hpool hbounds
      rw [bucketAllocateAux] at h
      by_cases h1 : s.sizes c = z
      · -- exact fit: unlink the candidate and hand it out unchanged
        rw [if_pos h1] at h
        simp only [Option.some.injEq, Prod.mk.injEq] at h
        obtain ⟨hcb, hss, hl⟩ := h
        subst hcb; subst hss; subst hl
        exact ⟨rfl, rfl, hpool, hbounds, fun x => rfl⟩
      · rw [if_neg h1] at h
        by_cases h2 : z < s.sizes c
        · -- Cut: fresh buffer r takes the front z bytes, candidate keeps the tail
          rw [if_pos h2] at h
          cases hp : s.pool.Allocate with
          | none => rw [hp] at h; exact absurd h (by simp)
          | some rp =>
              obtain ⟨r, pool'⟩ := rp
              rw [hp] at h
              simp only [Option.some.injEq, Prod.mk.injEq] at h
              obtain ⟨hrb, hss, hl⟩ := h
              subst hrb; subst hss; subst hl
              dsimp only
              obtain ⟨pfl, hpf⟩ := hpool
              obtain ⟨pfl', hpf', hrout⟩ := hpf.alloc hp
              have hrc : r ≠ c := by
                intro he
                exact hrout (by rw [he]; exact List.mem_cons_self c _)
              have hrcsF : r ∉ cs ++ F := by
                intro hm
                exact hrout (List.mem_cons_of_mem c hm)
              have hnd : c ∉ cs ++ F := by
                have hn := hpf.nodup
                rw [List.nodup_append] at hn
                have : ((c :: cs) ++ F).Nodup := hn.2.1
                rw [List.cons_append, List.nodup_cons] at this
                exact this.1
              have hstr : Function.update (Function.update s.starts r (s.starts c)) c
                    (Function.update s.starts r (s.starts c) c + z) r = s.starts c := by
                rw [Function.update_noteq hrc, Function.update_same]
              have hstc : Function.update (Function.update s.starts r (s.starts c)) c
                    (Function.update s.starts r (s.starts c) c + z) c = s.starts c + z := by
                rw [Function.update_same, Function.update_noteq (Ne.symm hrc)]
              have hszr : Function.update (Function.update s.sizes r z) c
                    (Function.update s.sizes r z c - z) r = z := by
                rw [Function.update_noteq hrc, Function.update_same]
              have hszc : Function.update (Function.update s.sizes r z) c
                    (Function.update s.sizes r z c - z) c = s.sizes c - z := by
                rw [Function.update_same, Function.update_noteq (Ne.symm hrc)]
              have hstd : ∀ d, d ≠ r → d ≠ c →
                  Function.update (Function.update s.starts r (s.starts c)) c
                    (Function.update s.starts r (s.starts c) c + z) d = s.starts d := by
                intro d hdr hdc
                rw [Function.update_noteq hdc, Function.update_noteq hdr]
              have hszd : ∀ d, d ≠ r → d ≠ c →
                  Function.update (Function.update s.sizes r z) c
                    (Function.update s.sizes r z c - z) d = s.sizes d := by
                intro d hdr hdc
                rw [Function.update_noteq hdc, Function.update_noteq hdr]
              have hcb := hbounds c (List.mem_append_left F (List.mem_cons_self c cs))
              refine ⟨rfl, rfl, ⟨pfl', hpf'⟩, ?_, ?_⟩
              · -- bounds for r, c and the untouched rest
                intro d hd
                rcases List.mem_cons.mp hd with heq | hd
                · rw [heq, hstr, hszr]
                  refine ⟨hcb.1, hz, ?_⟩
                  have := hcb.2.2
                  omega
                · rcases List.mem_cons.mp hd with heq | hd
                  · rw [heq, hstc, hszc]
                    refine ⟨by omega, by omega, ?_⟩
                    have := hcb.2.2
                    omega
                  · have hdr : d ≠ r := fun he => hrcsF (he ▸ hd)
                    have hdc : d ≠ c := fun he => hnd (he ▸ hd)
                    rw [hstd d hdr hdc, hszd d hdr hdc]
                    exact hbounds d (List.mem_append.mp hd |>.elim
                      (fun hm => List.mem_append_left F (List.mem_cons_of_mem c hm))
                      (List.mem_append_right _))
              · -- pointwise coverage unchanged: indicator_cut
                intro x
                dsimp only [coverCount]
                simp only [List.append_eq]
                rw [hstr, hszr, hstc, hszc]
                have hrest : coverCount
                    (Function.update (Function.update s.starts r (s.starts c)) c
                      (Function.update s.starts r (s.starts c) c + z))
                    (Function.update (Function.update s.sizes r z) c
                      (Function.update s.sizes r z c - z)) (cs ++ F) x =
                    coverCount s.starts s.sizes (cs ++ F) x := by
                  refine coverCount_congr (fun d hd => ?_) x
                  have hdr : d ≠ r := by rintro rfl; exact hrcsF hd
                  have hdc : d ≠ c := by rintro rfl; exact hnd hd
                  exact ⟨hstd d hdr hdc, hszd d hdr hdc⟩
                rw [hrest, ← Nat.add_assoc,
                  indicator_cut (s.starts c) z (s.sizes c) x hz (le_of_lt h2)]
        · -- candidate too small: scan past it
          rw [if_neg h2] at h
          cases hrec : bucketAllocateAux z s cs with
          | none => rw [hrec] at h; exact absurd h (by simp)
          | some t =>
              obtain ⟨res, s1, cs1⟩ := t
              rw [hrec] at h
              simp only [Option.some.injEq, Prod.mk.injEq] at h
              obtain ⟨hres, hs1, hl⟩ := h
              subst hres; subst hs1; subst hl
              obtain ⟨pfl, hpf⟩ := hpool
              have hpool' : ∃ pfl0, PoolInv s.pool pfl0 (cs ++ (c :: F)) :=
                ⟨pfl, hpf.perm_out List.perm_middle.symm⟩
              have hbounds' : bufferBounds s.starts s.sizes s.bucketSize (cs ++ (c :: F)) :=
                bufferBounds_perm List.perm_middle.symm hbounds
              obtain ⟨hN, hFB, hpool'', hbounds'', hcount⟩ := ih hrec hpool' hbounds'
              refine ⟨hN, hFB, ?_, ?_, ?_⟩
              · obtain ⟨pfl', hpf'⟩ := hpool''
                exact ⟨pfl', hpf'.perm_out (List.Perm.cons b List.perm_middle)⟩
              · exact bufferBounds_perm (List.Perm.cons b List.perm_middle) hbounds''
              · intro x
                calc coverCount s1.starts s1.sizes (b :: ((c :: cs1) ++ F)) x
                    = coverCount s1.starts s1.sizes (b :: (cs1 ++ (c :: F))) x :=
                      (coverCount_perm _ _ (List.Perm.cons b List.perm_middle) x).symm
                  _ = coverCount s.starts s.sizes (cs ++ (c :: F)) x := hcount x
                  _ = coverCount s.starts s.sizes ((c :: cs) ++ F) x :=
                      coverCount_perm _ _ List.perm_middle x

theorem bucket_Allocate_none_eq {z : Int} {s s' : bucketSys}
    (h : bucket_Allocate z s = some (none, s')) : s' = s := by
  unfold bucket_Allocate at h
  cases haux : bucketAllocateAux z s s.freeBuffers with
  | none => rw [haux] at h; exact absurd h (by simp)
  | some t =>
      obtain ⟨res, s1, l1⟩ := t
      rw [haux] at h
      simp only [Option.some.injEq, Prod.mk.injEq] at h
      obtain ⟨hres, hs'⟩ := h
      subst hres
      obtain ⟨hseq, hleq⟩ := bucketAllocateAux_none_eq haux
      subst hseq
      rw [← hs', hleq]

theorem bucket_Allocate_inv {z : Int} {s s' : bucketSys} {b : Nat}
    {used : List Nat} (hz : 0 ≤ z) (hB : BInv s used)
    (h : bucket_Allocate z s = some (some b, s')) :
    BInv s' (b :: used) ∧ s'.bucketSize = s.bucketSize := by
  unfold bucket_Allocate at h
  cases haux : bucketAllocateAux z s s.freeBuffers with
  | none => rw [haux] at h; exact absurd h (by simp)
  | some t =>
      obtain ⟨res, s1, l1⟩ := t
      rw [haux] at h
      simp only [Option.some.injEq, Prod.mk.injEq] at h
      obtain ⟨hres, hs'⟩ := h
      subst hres
      obtain ⟨hpool, hbounds, hpart⟩ := hB
      obtain ⟨hN, _, hpool', hbounds', hcount⟩ :=
        bucketAllocateAux_some_inv hz s.freeBuffers haux hpool hbounds
      subst hs'
      dsimp only
      refine ⟨⟨?_, ?_, ?_⟩, hN⟩
      · obtain ⟨pfl', hpf'⟩ := hpool'
        exact ⟨pfl', hpf'.perm_out List.perm_middle.symm⟩
      · exact bufferBounds_perm List.perm_middle.symm hbounds'
      · intro x
        calc coverCount s1.starts s1.sizes (l1 ++ (b :: used)) x
            = coverCount s1.starts s1.sizes (b :: (l1 ++ used)) x :=
              coverCount_perm _ _ List.perm_middle x
          _ = coverCount s.starts s.sizes (s.freeBuffers ++ used) x := hcount x
          _ = if 0 ≤ x ∧ x < s.bucketSize then 1 else 0 := hpart x
          _ = if 0 ≤ x ∧ x < s1.bucketSize then 1 else 0 := by rw [hN]

theorem scanMerge_inv {b : Nat} :
    ∀ (l : List Nat) {F : List Nat} {s s' : bucketSys} {l' : List Nat},
      scanMerge b s l = some (s', l') →
      (∃ pfl, PoolInv s.pool pfl (b :: (l ++ F))) →
      bufferBounds s.starts s.sizes s.bucketSize (b :: (l ++ F)) →
      s'.bucketSize = s.bucketSize ∧ s'.freeBuffers = s.freeBuffers ∧
      (∃ pfl', PoolInv s'.pool pfl' (b :: (l' ++ F))) ∧
      bufferBounds s'.starts s'.sizes s'.bucketSize (b :: (l' ++ F)) ∧
      (∀ x, coverCount s'.starts s'.sizes (b :: (l' ++ F)) x
            = coverCount s.starts s.sizes (b :: (l ++ F)) x) := by
  intro l
  induction l with
  | nil => intro F s s' l' h _ _; simp [scanMerge] at h
  | cons c cs ih =>
      intro F s s' l' h hpool hbounds
      rw [scanMerge] at h
      by_cases hm : MergableWith s.starts s.sizes b c
      · -- merge c into b, unlink c, return it to the pool
        rw [if_pos hm] at h
        simp only [buffer_Merge, Option.some.injEq, Prod.mk.injEq] at h
        obtain ⟨hs', hl'⟩ := h
        subst hs'; subst hl'
        dsimp only
        obtain ⟨pfl, hpf⟩ := hpool
        have hnd : (b :: (c :: (cs ++ F))).Nodup := by
          have hn := hpf.nodup
          rw [List.nodup_append] at hn
          exact hn.2.1
        rw [List.nodup_cons] at hnd
        have hbc : b ≠ c := fun he => hnd.1 (he ▸ List.mem_cons_self c _)
        have hbrest : b ∉ cs ++ F := fun hmem => hnd.1 (List.mem_cons_of_mem c hmem)
        have hcrest : c ∉ cs ++ F := (List.nodup_cons.mp hnd.2).1
        have hadj : s.starts b = s.starts c + s.sizes c ∨
            s.starts b + s.sizes b = s.starts c := by
          have hm' := hm
          unfold MergableWith at hm'
          rcases Bool.or_eq_true _ _ |>.mp hm' with h1 | h2
          · exact Or.inl (beq_iff_eq.mp h1)
          · exact Or.inr (beq_iff_eq.mp h2)
        have hstb : Function.update s.starts b
            (if s.starts c < s.starts b then s.starts c else s.starts b) b =
            (if s.starts c < s.starts b then s.starts c else s.starts b) :=
          Function.update_same _ _ _
        have hszb : Function.update s.sizes b (s.sizes b + s.sizes c) b =
            s.sizes b + s.sizes c := Function.update_same _ _ _
        have hstd : ∀ d, d ≠ b →
            Function.update s.starts b
              (if s.starts c < s.starts b then s.starts c else s.starts b) d =
            s.starts d := fun d hd => Function.update_noteq hd _ _
        have hszd : ∀ d, d ≠ b →
            Function.update s.sizes b (s.sizes b + s.sizes c) d = s.sizes d :=
          fun d hd => Function.update_noteq hd _ _
        have hbb := hbounds b (List.mem_cons_self b _)
        have hcb := hbounds c (List.mem_cons_of_mem b (List.mem_cons_self c _))
        refine ⟨rfl, rfl, ?_, ?_, ?_⟩
        · -- pool: c goes back to the free pool
          refine ⟨c :: pfl, ?_⟩
          have hswap : (b :: ((c :: cs) ++ F)).Perm (c :: (b :: (cs ++ F))) :=
            List.Perm.swap c b (cs ++ F)
          exact (hpf.perm_out hswap).free
        · -- bounds: the merged b stays inside the bucket
          intro d hd
          rcases List.mem_cons.mp hd with heq | hd
          · rw [heq, hstb, hszb]
            rcases hadj with ha | ha <;>
              refine ⟨?_, ?_, ?_⟩ <;> (try split_ifs) <;> omega
          · have hdb : d ≠ b := fun he => hbrest (he ▸ hd)
            rw [hstd d hdb, hszd d hdb]
            exact hbounds d (List.mem_cons_of_mem b (List.mem_cons_of_mem c hd))
        · -- coverage: merged indicator splits into the two old ones
          intro x
          dsimp only [coverCount]
          simp only [List.append_eq]
          rw [hstb, hszb]
          have hrest : coverCount
              (Function.update s.starts b
                (if s.starts c < s.starts b then s.starts c else s.starts b))
              (Function.update s.sizes b (s.sizes b + s.sizes c)) (cs ++ F) x =
              coverCount s.starts s.sizes (cs ++ F) x := by
            refine coverCount_congr (fun d hd => ?_) x
            have hdb : d ≠ b := fun he => hbrest (he ▸ hd)
            exact ⟨hstd d hdb, hszd d hdb⟩
          rw [hrest,
            indicator_merge (s.starts b) (s.sizes b) (s.starts c) (s.sizes c) x
              hbb.2.1 hcb.2.1 hadj, Nat.add_assoc]
      · -- c not mergeable: keep it, scan the tail
        rw [if_neg hm] at h
        cases hrec : scanMerge b s cs with
        | none => rw [hrec] at h; exact absurd h (by simp)
        | some t =>
            obtain ⟨s1, cs1⟩ := t
            rw [hrec] at h
            simp only [Option.some.injEq, Prod.mk.injEq] at h
            obtain ⟨hs1, hl'⟩ := h
            subst hs1; subst hl'
            obtain ⟨pfl, hpf⟩ := hpool
            have hmove : (b :: ((c :: cs) ++ F)).Perm (b :: (cs ++ (c :: F))) :=
              List.Perm.cons b List.perm_middle.symm
            have hpool' : ∃ pfl0, PoolInv s.pool pfl0 (b :: (cs ++ (c :: F))) :=
              ⟨pfl, hpf.perm_out hmove⟩
            have hbounds' : bufferBounds s.starts s.sizes s.bucketSize
                (b :: (cs ++ (c :: F))) := bufferBounds_perm hmove hbounds
            obtain ⟨hN, hFB, hpool'', hbounds'', hcount⟩ := ih hrec hpool' hbounds'
            have hback : (b :: (cs1 ++ (c :: F))).Perm (b :: ((c :: cs1) ++ F)) :=
              List.Perm.cons b List.perm_middle
            refine ⟨hN, hFB, ?_, ?_, ?_⟩
            · obtain ⟨pfl', hpf'⟩ := hpool''
              exact ⟨pfl', hpf'.perm_out hback⟩
            · exact bufferBounds_perm hback hbounds''
            · intro x
              calc coverCount s1.starts s1.sizes (b :: ((c :: cs1) ++ F)) x
                  = coverCount s1.starts s1.sizes (b :: (cs1 ++ (c :: F))) x :=
                    coverCount_perm _ _ hback.symm x
                _ = coverCount s.starts s.sizes (b :: (cs ++ (c :: F))) x := hcount x
                _ = coverCount s.starts s.sizes (b :: ((c :: cs) ++ F)) x :=
                    coverCount_perm _ _ hmove.symm x

theorem releaseLoop_inv {b : Nat} :
    ∀ (fuel : Nat) (l F : List Nat) {s : bucketSys},
      (∃ pfl, PoolInv s.pool pfl (b :: (l ++ F))) →
      bufferBounds s.starts s.sizes s.bucketSize (b :: (l ++ F)) →
      (releaseLoop b fuel s l).1.bucketSize = s.bucketSize ∧
      (releaseLoop b fuel s l).1.freeBuffers = s.freeBuffers ∧
      (∃ pfl', PoolInv (releaseLoop b fuel s l).1.pool pfl'
        (b :: ((releaseLoop b fuel s l).2 ++ F))) ∧
      bufferBounds (releaseLoop b fuel s l).1.starts (releaseLoop b fuel s l).1.sizes
        (releaseLoop b fuel s l).1.bucketSize (b :: ((releaseLoop b fuel s l).2 ++ F)) ∧
      (∀ x, coverCount (releaseLoop b fuel s l).1.starts (releaseLoop b fuel s l).1.sizes
            (b :: ((releaseLoop b fuel s l).2 ++ F)) x
            = coverCount s.starts s.sizes (b :: (l ++ F)) x) := by
  intro fuel
  induction fuel with
  | zero => intro l F s hpool hbounds; exact ⟨rfl, rfl, hpool, hbounds, fun x => rfl⟩
  | succ n ih =>
      intro l F s hpool hbounds
      cases hsm : scanMerge b s l with
      | none =>
          have heq : releaseLoop b (n + 1) s l = (s, l) := by
            rw [releaseLoop, hsm]
          rw [heq]
          exact ⟨rfl, rfl, hpool, hbounds, fun x => rfl⟩
      | some t =>
          obtain ⟨s1, l1⟩ := t
          have heq : releaseLoop b (n + 1) s l = releaseLoop b n s1 l1 := by
            rw [releaseLoop, hsm]
          obtain ⟨hN, hFB, hpool1, hbounds1, hcount1⟩ :=
            scanMerge_inv l hsm hpool hbounds
          obtain ⟨hN', hFB', hpool2, hbounds2, hcount2⟩ := ih l1 F hpool1 hbounds1
          rw [heq]
          exact ⟨hN'.trans hN, hFB'.trans hFB, hpool2, hbounds2,
            fun x => (hcount2 x).trans (hcount1 x)⟩

theorem bucket_Release_inv {s : bucketSys} {used : List Nat} {b : Nat}
    (hB : BInv s used) (hbu : b ∈ used) :
    BInv (bucket_Release b s) (used.erase b) ∧
      (bucket_Release b s).bucketSize = s.bucketSize := by
  obtain ⟨hpool, hbounds, hpart⟩ := hB
  have hperm0 : (s.freeBuffers ++ used).Perm
      (b :: (s.freeBuffers ++ used.erase b)) :=
    ((List.Perm.append_left s.freeBuffers (List.perm_cons_erase hbu)).trans
      List.perm_middle)
  cases hfb : s.freeBuffers with
  | nil =>
      have hrel : bucket_Release b s = { s with freeBuffers := [b] } := by
        rw [bucket_Release, hfb]
      rw [hfb] at hperm0 hpool hbounds hpart
      refine ⟨⟨?_, ?_, ?_⟩, by rw [hrel]⟩
      · rw [hrel]
        obtain ⟨pfl, hpf⟩ := hpool
        exact ⟨pfl, hpf.perm_out hperm0⟩
      · rw [hrel]
        exact bufferBounds_perm hperm0 hbounds
      · rw [hrel]
        intro x
        exact (coverCount_perm _ _ hperm0.symm x).trans (hpart x)
  | cons c cs =>
      have hrel : bucket_Release b s =
          { (releaseLoop b (c :: cs).length s (c :: cs)).1 with
            freeBuffers := b :: (releaseLoop b (c :: cs).length s (c :: cs)).2 } := by
        rw [bucket_Release, hfb]
      rw [hfb] at hperm0 hpool hbounds hpart
      obtain ⟨pfl, hpf⟩ := hpool
      obtain ⟨hN, _, hpool1, hbounds1, hcount1⟩ :=
        releaseLoop_inv (c :: cs).length (c :: cs) (used.erase b)
          ⟨pfl, hpf.perm_out hperm0⟩ (bufferBounds_perm hperm0 hbounds)
      refine ⟨⟨?_, ?_, ?_⟩, by rw [hrel]; exact hN⟩
      · rw [hrel]
        exact hpool1
      · rw [hrel]
        exact hbounds1
      · rw [hrel]
        intro x
        have hfin : coverCount (releaseLoop b (c :: cs).length s (c :: cs)).1.starts
            (releaseLoop b (c :: cs).length s (c :: cs)).1.sizes
            (b :: ((releaseLoop b (c :: cs).length s (c :: cs)).2 ++ used.erase b)) x =
            if 0 ≤ x ∧ x < s.bucketSize then 1 else 0 :=
          (hcount1 x).trans ((coverCount_perm _ _ hperm0.symm x).trans (hpart x))
        rw [← hN] at hfin
        exact hfin

theorem BReach_BInv {N : Int} {burst : Nat} {s : bucketSys} {used : List Nat}
    (h : BReach N burst s used) : BInv s used ∧ s.bucketSize = N := by
  induction h with
  | init hN hinit =>
      unfold initBucketSys at hinit
      cases hA : (freshAllocator burst).Allocate with
      | none => rw [hA] at hinit; exact absurd hinit (by simp)
      | some t =>
          obtain ⟨r, pool'⟩ := t
          rw [hA] at hinit
          simp only [Option.some.injEq] at hinit
          subst hinit
          obtain ⟨fl', hpf', _⟩ := (PoolInv_freshAllocator burst).alloc hA
          refine ⟨⟨⟨fl', hpf'⟩, ?_, ?_⟩, rfl⟩
          · intro d hd
            have hdr : d = r := by simpa using hd
            subst hdr
            dsimp only
            rw [Function.update_same, Function.update_same]
            exact ⟨le_refl 0, hN, by omega⟩
          · intro x
            dsimp only
            simp only [List.cons_append, List.nil_append, coverCount,
              Function.update_same, Nat.add_zero]
            split_ifs <;> omega
  | alloc _ hz hA ih =>
      obtain ⟨hB, hsz⟩ := ih
      obtain ⟨hB', hsz'⟩ := bucket_Allocate_inv hz hB hA
      exact ⟨hB', hsz'.trans hsz⟩
  | allocFail _ hz hA ih =>
      obtain ⟨hB, hsz⟩ := ih
      rw [bucket_Allocate_none_eq hA]
      exact ⟨hB, hsz⟩
  | release _ hbu ih =>
      obtain ⟨hB, hsz⟩ := ih
      obtain ⟨hB', hsz'⟩ := bucket_Release_inv hB hbu
      exact ⟨hB', hsz'.trans hsz⟩

/-- C1 **Partition invariant**: for every Bucket and every legal sequence
of `bucket_t.Allocate` / `bucket_t.Release` operations starting from a
fresh Bucket (one free Buffer spanning the whole capacity), the free
Buffers on the free list together with the currently handed-out Buffers
cover every point of `[0, bucket_size)` exactly once and no point outside
it — an exact, non-overlapping partition. -/
theorem C1_partition_invariant {N : Int} {burst : Nat} {s : bucketSys}
    {used : List Nat} (h : BReach N burst s used) :
    ∀ x : Int, coverCount s.starts s.sizes (s.freeBuffers ++ used) x =
      if 0 ≤ x ∧ x < N then 1 else 0 := by
  obtain ⟨⟨_, _, hpart⟩, hsz⟩ := BReach_BInv h
  intro x
  rw [hpart x, hsz]

/-- Witness for C1 at the fresh 30-byte bucket with burst 1. -/
theorem C1_partition_invariant_witness :
    ∃ s₀ : bucketSys, initBucketSys 30 1 = some s₀ ∧
      ∀ x : Int, coverCount s₀.starts s₀.sizes (s₀.freeBuffers ++ []) x =
        if 0 ≤ x ∧ x < 30 then 1 else 0 :=
  ⟨_, rfl, C1_partition_invariant (@BReach.init 30 1 _ (by decide) rfl)⟩

/-- C2 **No-overrun invariant**: in every state reachable by legal
`bucket_t.Allocate` / `bucket_t.Release` sequences from a fresh Bucket
(which covers the spanning buffer at creation, every buffer after every
`Cut`, and every buffer after every `Merge`), every live Buffer satisfies
`0 ≤ start` and `start + size ≤ bucket_size`. -/
theorem C2_no_overrun {N : Int} {burst : Nat} {s : bucketSys}
    {used : List Nat} (h : BReach N burst s used) :
    ∀ b ∈ s.freeBuffers ++ used, 0 ≤ s.starts b ∧ s.starts b + s.sizes b ≤ N := by
  obtain ⟨⟨_, hbounds, _⟩, hsz⟩ := BReach_BInv h
  intro b hb
  obtain ⟨h1, _, h3⟩ := hbounds b hb
  exact ⟨h1, by rw [← hsz]; exact h3⟩

/-- Witness for C2 at the fresh 16-byte bucket with burst 2. -/
theorem C2_no_overrun_witness :
    ∃ s₀ : bucketSys, initBucketSys 16 2 = some s₀ ∧
      ∀ b ∈ s₀.freeBuffers ++ [], 0 ≤ s₀.starts b ∧ s₀.starts b + s₀.sizes b ≤ 16 :=
  ⟨_, rfl, C2_no_overrun (@BReach.init 16 2 _ (by decide) rfl)⟩

theorem bucketAllocateAux_cut {z : Int} :
    ∀ (pre : List Nat) {s : bucketSys} {c : Nat} {rest : List Nat} {r : Nat}
      {pool' : memoryAllocator},
      (∀ d ∈ pre, s.sizes d < z) → z < s.sizes c →
      s.pool.Allocate = some (r, pool') → r ≠ c →
      ∃ s1, bucketAllocateAux z s (pre ++ c :: rest) =
          some (some r, s1, pre ++ c :: rest) ∧
        s1.freeBuffers = s.freeBuffers ∧ s1.bucketSize = s.bucketSize ∧
        s1.pool = pool' ∧
        s1.starts r = s.starts c ∧ s1.sizes r = z ∧ s1.owner r = s.owner c ∧
        s1.starts c = s.starts c + z ∧ s1.sizes c = s.sizes c - z ∧
        (∀ d, d ≠ r → d ≠ c → s1.starts d = s.starts d ∧ s1.sizes d = s.sizes d) := by
  intro pre
  induction pre with
  | nil =>
      intro s c rest r pool' _ hc hpA hrc
      let s1 : bucketSys :=
        { s with
          pool := pool',
          starts := Function.update (Function.update s.starts r (s.starts c)) c
            (Function.update s.starts r (s.starts c) c + z),
          sizes := Function.update (Function.update s.sizes r z) c
            (Function.update s.sizes r z c - z),
          owner := Function.update s.owner r (s.owner c) }
      refine ⟨s1, ?_, rfl, rfl, rfl, ?_, ?_, ?_, ?_, ?_, ?_⟩
      · show bucketAllocateAux z s (c :: rest) = _
        rw [bucketAllocateAux, if_neg (by omega), if_pos hc, hpA]
        rfl
      · show Function.update (Function.update s.starts r (s.starts c)) c
            (Function.update s.starts r (s.starts c) c + z) r = s.starts c
        rw [Function.update_noteq hrc, Function.update_same]
      · show Function.update (Function.update s.sizes r z) c
            (Function.update s.sizes r z c - z) r = z
        rw [Function.update_noteq hrc, Function.update_same]
      · show Function.update s.owner r (s.owner c) r = s.owner c
        rw [Function.update_same]
      · show Function.update (Function.update s.starts r (s.starts c)) c
            (Function.update s.starts r (s.starts c) c + z) c = s.starts c + z
        rw [Function.update_same, Function.update_noteq (Ne.symm hrc)]
      · show Function.update (Function.update s.sizes r z) c
            (Function.update s.sizes r z c - z) c = s.sizes c - z
        rw [Function.update_same, Function.update_noteq (Ne.symm hrc)]
      · intro d hdr hdc
        constructor
        · show Function.update (Function.update s.starts r (s.starts c)) c
              (Function.update s.starts r (s.starts c) c + z) d = s.starts d
          rw [Function.update_noteq hdc, Function.update_noteq hdr]
        · show Function.update (Function.update s.sizes r z) c
              (Function.update s.sizes r z c - z) d = s.sizes d
          rw [Function.update_noteq hdc, Function.update_noteq hdr]
  | cons p ps ih =>
      intro s c rest r pool' hpre hc hpA hrc
      have hp := hpre p (List.mem_cons_self p ps)
      obtain ⟨s1, heq, h1, h2, h3, h4, h5, h6, h7, h8, h9⟩ :=
        ih (fun d hd => hpre d (List.mem_cons_of_mem p hd)) hc hpA hrc
      refine ⟨s1, ?_, h1, h2, h3, h4, h5, h6, h7, h8, h9⟩
      show bucketAllocateAux z s (p :: (ps ++ c :: rest)) = _
      rw [bucketAllocateAux, if_neg (by omega), if_neg (by omega), heq]
      rfl

/-- C6: in `bucket_t.Allocate`, when the first-fit scan reaches a free
candidate `c` strictly larger than the requested size (every earlier
candidate being too small — first fit, not best fit), the returned Buffer
is a newly minted one `r` from the pool covering exactly the front
`z` bytes of the candidate (same bucket `owner`, same `start`), while the
candidate is shrunk in place (`start += z`, `size -= z`) and remains at
its original position in the free list; all other buffers are untouched. -/
theorem C6_first_fit_cut {z : Int} {s : bucketSys} {pre rest : List Nat}
    {c r : Nat} {pool' : memoryAllocator}
    (hfb : s.freeBuffers = pre ++ c :: rest)
    (hpre : ∀ d ∈ pre, s.sizes d < z)
    (hc : z < s.sizes c)
    (hpA : s.pool.Allocate = some (r, pool'))
    (hrc : r ≠ c) :
    ∃ s', bucket_Allocate z s = some (some r, s') ∧
      s'.freeBuffers = pre ++ c :: rest ∧
      s'.bucketSize = s.bucketSize ∧
      s'.pool = pool' ∧
      s'.starts r = s.starts c ∧ s'.sizes r = z ∧ s'.owner r = s.owner c ∧
      s'.starts c = s.starts c + z ∧ s'.sizes c = s.sizes c - z ∧
      (∀ d, d ≠ r → d ≠ c → s'.starts d = s.starts d ∧ s'.sizes d = s.sizes d) := by
  obtain ⟨s1, heq, _, h2, h3, h4, h5, h6, h7, h8, h9⟩ :=
    bucketAllocateAux_cut pre hpre hc hpA hrc
  refine ⟨{ s1 with freeBuffers := pre ++ c :: rest },
    ?_, rfl, h2, h3, h4, h5, h6, h7, h8, h9⟩
  unfold bucket_Allocate
  rw [hfb, heq]

/-- Witness for C6 on the fresh 30-byte bucket: candidate 0 (the spanning
buffer) is cut at 10 bytes by the newly minted buffer 1. -/
theorem C6_first_fit_cut_witness :
    ∃ (s₀ : bucketSys) (pool' : memoryAllocator),
      initBucketSys 30 1 = some s₀ ∧
      s₀.pool.Allocate = some (1, pool') ∧
      ∃ s', bucket_Allocate 10 s₀ = some (some 1, s') ∧
        s'.freeBuffers = [] ++ 0 :: [] ∧
        s'.bucketSize = s₀.bucketSize ∧
        s'.pool = pool' ∧
        s'.starts 1 = s₀.starts 0 ∧ s'.sizes 1 = 10 ∧ s'.owner 1 = s₀.owner 0 ∧
        s'.starts 0 = s₀.starts 0 + 10 ∧ s'.sizes 0 = s₀.sizes 0 - 10 ∧
        (∀ d, d ≠ 1 → d ≠ 0 → s'.starts d = s₀.starts d ∧ s'.sizes d = s₀.sizes d) := by
  refine ⟨_, _, rfl, rfl, ?_⟩
  exact C6_first_fit_cut rfl (fun d hd => absurd hd (List.not_mem_nil d))
    (by decide) rfl (by decide)

/-- The state of `bufferManager` (memory.go:358-371) over the shared
buffer heap: `bucketFree k` is bucket `k`'s `FreeBuffers` list,
`buckets` is the manager's `Buckets` list of available buckets (by id),
and `detached k` models `bucket.Next == sentry_bucket` (the global
sentinel marking a bucket detached from `Buckets`,
memory.go:356,414,423,474). -/
structure managerSys where
  BufferAllocator : memoryAllocator
  BucketAllocator : memoryAllocator
  starts : Nat → Int
  sizes : Nat → Int
  owner : Nat → Nat
  bucketFree : Nat → List Nat
  buckets : List Nat
  detached : Nat → Bool
  BucketSize : Int
  ReservedBuckets : Int
  ReservedBytes : Int
  AvailableBuckets : Int
  AllocatedBuffers : Int
  AllocatedBytes : Int
  TotalAllocatedBuffers : Int
  TotalAllocatedBytes : Int

/-- Mirror of Go's `BufferManagerStats` (memory.go:338-348). -/
structure BufferManagerStats where
  ReservedBuckets : Int
  ReservedBytes : Int
  AvailableBuckets : Int
  AllocatedBuffers : Int
  AllocatedBytes : Int
  TotalAllocatedBuffers : Int
  TotalAllocatedBytes : Int
  BufferAllocatorStats : AllocatorStats
  BucketAllocatorStats : AllocatorStats
  deriving DecidableEq, Repr

/-- A value of the `Buffer` interface passed to `bufferManager.Free`:
either a `*buffer_t` (by id) or a value of some other concrete type
implementing the interface. -/
inductive BufferVal where
  | ofBuffer (b : Nat)
  | foreign
  deriving DecidableEq, Repr

/-- The view of one bucket of the manager as a standalone `bucketSys`
(the bucket logic mutates the shared heap through pointers; the view and
`writeBack` make that sharing explicit). -/
def managerSys.viewBucket (m : managerSys) (k : Nat) : bucketSys :=
  { pool := m.BufferAllocator, starts := m.starts, sizes := m.sizes,
    owner := m.owner, freeBuffers := m.bucketFree k, bucketSize := m.BucketSize }

/-- Write a mutated bucket view back into the manager. -/
def managerSys.writeBack (m : managerSys) (k : Nat) (bs : bucketSys) : managerSys :=
  { m with
    BufferAllocator := bs.pool, starts := bs.starts, sizes := bs.sizes,
    owner := bs.owner, bucketFree := Function.update m.bucketFree k bs.freeBuffers }

/-- `bufferManager.initialize` / `NewBufferManager` (memory.go:377-396):
fails (`none`) when either pool burst is negative (`NewAllocator` panics). -/
def NewBufferManager (bucketSize bucketAllocatorBurst bufferAllocatorBurst : Int) :
    Option managerSys :=
  if bucketAllocatorBurst < 0 ∨ bufferAllocatorBurst < 0 then none
  else some
    { BufferAllocator := freshAllocator bufferAllocatorBurst.toNat,
      BucketAllocator := freshAllocator bucketAllocatorBurst.toNat,
      starts := fun _ => 0, sizes := fun _ => 0, owner := fun _ => 0,
      bucketFree := fun _ => [], buckets := [], detached := fun _ => false,
      BucketSize := bucketSize,
      ReservedBuckets := 0, ReservedBytes := 0, AvailableBuckets := 0,
      AllocatedBuffers := 0, AllocatedBytes := 0,
      TotalAllocatedBuffers := 0, TotalAllocatedBytes := 0 }

/-- `bufferManager.createBucket` (memory.go:397-408): mint a bucket from
the bucket pool, give it a fresh backing block and one spanning free
buffer minted from the buffer pool; bump the reserved counters. -/
def managerSys.createBucket (m : managerSys) : Option (Nat × managerSys) :=
  match m.BucketAllocator.Allocate with
  | none => none
  | some (k, bkp') =>
    match m.BufferAllocator.Allocate with
    | none => none
    | some (r, bfp') =>
        some (k,
          { m with
            BucketAllocator := bkp',
            BufferAllocator := bfp',
            owner := Function.update m.owner r k,
            sizes := Function.update m.sizes r m.BucketSize,
            starts := Function.update m.starts r 0,
            bucketFree := Function.update m.bucketFree k [r],
            ReservedBuckets := m.ReservedBuckets + 1,
            ReservedBytes := m.ReservedBytes + m.BucketSize })

/-- The scan of `bufferManager.do_allocate` (memory.go:428-438) over the
`Buckets` list, with `try_remove_bucket` (memory.go:409-416) applied on
success: if the satisfying bucket's free list emptied, unlink it and mark
it with the sentinel (`detached`).  Returns the buffer (with its bucket)
or `none`-result, the updated manager, and the transformed list. -/
def do_allocate_scan (z : Int) (m : managerSys) :
    List Nat → Option (Option Nat × managerSys × List Nat)
  | [] => some (none, m, [])
  | k :: ks =>
    match bucket_Allocate z (m.viewBucket k) with
    | none => none
    | some (some b, bs') =>
        let m' := m.writeBack k bs'
        if bs'.freeBuffers.isEmpty then
          some (some b,
            { m' with
              AvailableBuckets := m'.AvailableBuckets - 1,
              detached := Function.update m'.detached k true }, ks)
        else some (some b, m', k :: ks)
    | some (none, bs') =>
        match do_allocate_scan z (m.writeBack k bs') ks with
        | none => none
        | some (res, m'', ks') => some (res, m'', k :: ks')

/-- `bufferManager.do_allocate` (memory.go:426-445): first-fit over the
available buckets; on exhaustion create a new bucket, allocate from it and
insert it via `try_insert_bucket` (memory.go:417-425). -/
def managerSys.do_allocate (m : managerSys) (z : Int) :
    Option (Option Nat × managerSys) :=
  match do_allocate_scan z m m.buckets with
  | none => none
  | some (some b, m', bl) => some (some b, { m' with buckets := bl })
  | some (none, m', bl) =>
    let m1 : managerSys := { m' with buckets := bl }
    match m1.createBucket with
    | none => none
    | some (k, m2) =>
      match bucket_Allocate z (m2.viewBucket k) with
      | none => none
      | some (res, bs') =>
          let m3 := m2.writeBack k bs'
          if bs'.freeBuffers.isEmpty then
            some (res, { m3 with detached := Function.update m3.detached k true })
          else
            some (res,
              { m3 with
                AvailableBuckets := m3.AvailableBuckets + 1,
                buckets := k :: m3.buckets })

/-- `bufferManager.Allocate` (memory.go:448-460): oversize requests return
nil immediately with no state change; otherwise allocate, bump the four
allocation counters and clear the returned buffer's `Next` link
(`buffer.Next = nil`, whose nil-dereference on an impossible nil result is
the `none` case). -/
def managerSys.Allocate (m : managerSys) (z : Int) :
    Option (Option Nat × managerSys) :=
  if m.BucketSize < z then some (none, m)
  else
    match m.do_allocate z with
    | none => none
    | some (none, _) => none
    | some (some b, m') =>
        some (some b,
          { m' with
            AllocatedBuffers := m'.AllocatedBuffers + 1,
            TotalAllocatedBuffers := m'.TotalAllocatedBuffers + 1,
            AllocatedBytes := m'.AllocatedBytes + z,
            TotalAllocatedBytes := m'.TotalAllocatedBytes + z,
            BufferAllocator :=
              { m'.BufferAllocator with
                next := Function.update m'.BufferAllocator.next b none } })

/-- `bufferManager.Free` (memory.go:461-479): nil is ignored; a Buffer of
any concrete type other than `*buffer_t` panics (`Invalid buffer`); a
`*buffer_t` is processed with **no ownership check**: the manager's
counters are decremented, the buffer is released into its own bucket, and
a detached owning bucket (sentinel `Next`) is reattached to `Buckets`. -/
def managerSys.Free (m : managerSys) (v : Option BufferVal) : Option managerSys :=
  match v with
  | none => some m
  | some BufferVal.foreign => none
  | some (BufferVal.ofBuffer b) =>
    let m1 : managerSys :=
      { m with
        AllocatedBuffers := m.AllocatedBuffers - 1,
        AllocatedBytes := m.AllocatedBytes - m.sizes b }
    let k := m.owner b
    let bs' := bucket_Release b (m1.viewBucket k)
    let m2 := m1.writeBack k bs'
    if m2.detached k then
      some
        { m2 with
          AvailableBuckets := m2.AvailableBuckets + 1,
          buckets := k :: m2.buckets,
          detached := Function.update m2.detached k false }
    else some m2

/-- `bufferManager.GetStats` (memory.go:480-492). -/
def managerSys.GetStats (m : managerSys) : BufferManagerStats :=
  { ReservedBuckets := m.ReservedBuckets,
    ReservedBytes := m.ReservedBytes,
    AvailableBuckets := m.AvailableBuckets,
    AllocatedBuffers := m.AllocatedBuffers,
    AllocatedBytes := m.AllocatedBytes,
    TotalAllocatedBuffers := m.TotalAllocatedBuffers,
    TotalAllocatedBytes := m.TotalAllocatedBytes,
    BufferAllocatorStats := m.BufferAllocator.GetStats,
    BucketAllocatorStats := m.BucketAllocator.GetStats }

/-- C7 **Oversize rejection**: for every manager state and every
`size > BucketSize`, `bufferManager.Allocate` returns nil and the state —
every statistics counter, the bucket list, and both pool allocators — is
literally unchanged (the guard at memory.go:449 returns before any
mutation). -/
theorem C7_oversize_rejection (m : managerSys) (z : Int)
    (h : m.BucketSize < z) : m.Allocate z = some (none, m) := by
  unfold managerSys.Allocate
  rw [if_pos h]

/-- Witness for C7: a fresh 8-byte manager rejects a 9-byte request. -/
theorem C7_oversize_rejection_witness :
    ∃ m0, NewBufferManager 8 1 1 = some m0 ∧ m0.Allocate 9 = some (none, m0) := by
  refine ⟨_, rfl, ?_⟩
  exact C7_oversize_rejection _ 9 (by decide)

/-- C8 counterexample: `bufferManager.Free` silently accepts a `*buffer_t`
the manager does not own.  A freshly constructed manager has never
produced any Buffer (`TotalAllocatedBuffers = 0` and its buffer pool has
minted nothing), yet `Free` on the non-null buffer 0 completes without a
panic — the only check in `Free` (memory.go:466-469) is the concrete-type
assertion, not ownership. -/
theorem C8_foreign_free_counterexample :
    ∃ m0, NewBufferManager 8 1 1 = some m0 ∧
      m0.TotalAllocatedBuffers = 0 ∧ m0.BufferAllocator.minted = 0 ∧
      (m0.Free (some (BufferVal.ofBuffer 0))).isSome = true :=
  ⟨_, rfl, rfl, rfl, rfl⟩

/-- C8 amended: `bufferManager.Free` fails loudly exactly when the non-null
Buffer's concrete type is not `*buffer_t` (the type assertion panics with
"Invalid buffer"); every `*buffer_t` — owned by this manager or not — is
accepted without any ownership check and processed against this manager's
counters. -/
theorem C8_free_panics_only_on_wrong_type :
    (∀ m : managerSys, m.Free (some BufferVal.foreign) = none) ∧
    (∀ (m : managerSys) (b : Nat),
      (m.Free (some (BufferVal.ofBuffer b))).isSome = true) := by
  constructor
  · intro m
    rfl
  · intro m b
    unfold managerSys.Free
    dsimp only
    split <;> rfl
